import Mathlib

/-!
Verification of node_cassandra (lib/cassandra.js) against its specification.

The JavaScript source is shallowly embedded: JavaScript objects whose
property order matters are modelled as insertion-ordered association lists
(objSet / objGet below), absent or null values as Option, and the thrift
wire structures (ColumnParent, SlicePredicate, SliceRange, Mutation,
Deletion) as Lean structures with the same field names.  Asynchronous
callbacks are modelled by recording the sequence of callback invocations
as data.
-/

set_option linter.unusedVariables false

namespace NodeCassandra

/-- Thrift consistency levels (cassandra_types).  Their numeric values are
1 through 8, so every level is a truthy JavaScript number; null/undefined
is modelled by Option.none. -/
inductive CLevel where
  | ONE
  | QUORUM
  | LOCAL_QUORUM
  | EACH_QUORUM
  | ALL
  | ANY
  | TWO
  | THREE
deriving DecidableEq, Repr

/-- JavaScript a || b for consistency-level values: every concrete level is
truthy (numeric values 1..8), null and undefined are falsy. -/
def jsOrCL : Option CLevel → Option CLevel → Option CLevel
  | some c, _ => some c
  | none, d => d

/-- The pair this.defaultCL held by a Client.  The fields are typed Option
because a JavaScript property could in principle hold null; the theorems
show the code never stores null here. -/
structure DefaultCL where
  read : Option CLevel
  write : Option CLevel
deriving DecidableEq, Repr

/-- Client constructor: defaultCL starts as QUORUM / QUORUM. -/
def initDefaultCL : DefaultCL := ⟨some CLevel.QUORUM, some CLevel.QUORUM⟩

/-- Argument object accepted by Client.prototype.consistencyLevel: either
field may be absent. -/
structure CLArg where
  read : Option CLevel
  write : Option CLevel
deriving DecidableEq, Repr

/-- Client.prototype.consistencyLevel (setter branch):
this.defaultCL.read = newCL.read || QUORUM and likewise for write.
The previous pair cl is not consulted. -/
def consistencyLevelSet (cl : DefaultCL) (newCL : CLArg) : DefaultCL :=
  ⟨jsOrCL newCL.read (some CLevel.QUORUM), jsOrCL newCL.write (some CLevel.QUORUM)⟩

/-- A sequence of setter calls applied to a starting default pair. -/
def applyCLCalls (cl : DefaultCL) (calls : List CLArg) : DefaultCL :=
  calls.foldl consistencyLevelSet cl

/-! JavaScript object model: insertion-ordered association lists. -/

/-- JavaScript property assignment obj[k] = v: an existing key keeps its
position and gets the new value, a new key is appended. -/
def objSet {V : Type} : List (String × V) → String → V → List (String × V)
  | [], k, v => [(k, v)]
  | (k1, v1) :: rest, k, v =>
      if k1 = k then (k1, v) :: rest else (k1, v1) :: objSet rest k v

/-- JavaScript property read obj[k]: none models undefined. -/
def objGet {V : Type} : List (String × V) → String → Option V
  | [], _ => none
  | (k1, v1) :: rest, k => if k1 = k then some v1 else objGet rest k

theorem objGet_objSet_self {V : Type} (m : List (String × V)) (k : String) (v : V) :
    objGet (objSet m k v) k = some v := by
  induction m with
  | nil => simp [objSet, objGet]
  | cons p rest ih =>
      obtain ⟨k1, v1⟩ := p
      by_cases h : k1 = k
      · simp [objSet, objGet, h]
      · simp [objSet, objGet, h, ih]

theorem objGet_objSet_ne {V : Type} (m : List (String × V)) (k k9 : String) (v : V)
    (h : k9 ≠ k) : objGet (objSet m k9 v) k = objGet m k := by
  induction m with
  | nil => simp [objSet, objGet, h]
  | cons p rest ih =>
      obtain ⟨k1, v1⟩ := p
      by_cases h1 : k1 = k9
      · subst h1
        simp [objSet, objGet, h]
      · simp [objSet, h1]
        by_cases h2 : k1 = k
        · simp [objGet, h2]
        · simp [objGet, h2, ih]

theorem objGet_append {V : Type} (m1 m2 : List (String × V)) (k : String) :
    objGet (m1 ++ m2) k =
      (match objGet m1 k with
       | some v => some v
       | none => objGet m2 k) := by
  induction m1 with
  | nil => simp [objGet]
  | cons p rest ih =>
      obtain ⟨k1, v1⟩ := p
      by_cases h : k1 = k
      · simp [objGet, h]
      · simp [objGet, h, ih]

theorem objSet_absent {V : Type} (m : List (String × V)) (k : String) (v : V)
    (h : objGet m k = none) : objSet m k v = m ++ [(k, v)] := by
  induction m with
  | nil => simp [objSet]
  | cons p rest ih =>
      obtain ⟨k1, v1⟩ := p
      by_cases h1 : k1 = k
      · simp [objGet, h1] at h
      · simp [objGet, h1] at h
        simp [objSet, h1, ih h]

theorem objGet_of_mem_nodup {V : Type} (m : List (String × V)) (k : String) (v : V)
    (hmem : (k, v) ∈ m) (hnd : (m.map Prod.fst).Nodup) : objGet m k = some v := by
  induction m with
  | nil => simp at hmem
  | cons p rest ih =>
      obtain ⟨k1, v1⟩ := p
      simp only [List.map_cons, List.nodup_cons] at hnd
      rcases List.mem_cons.mp hmem with h | h
      · have hk : k1 = k := by
          simpa using (congrArg Prod.fst h).symm
        have hv : v1 = v := by
          simpa using (congrArg Prod.snd h).symm
        subst hk
        subst hv
        simp [objGet]
      · have hkmem : k ∈ rest.map Prod.fst := List.mem_map.mpr ⟨(k, v), h, rfl⟩
        have hne : k1 ≠ k := fun he => hnd.1 (by rw [he]; exact hkmem)
        simp [objGet, hne, ih h hnd.2]

/-- Folding property assignments over a list of records, as the source's
for-in loops do.  If none of the records has key k, the fold leaves the
value at k unchanged. -/
theorem objGet_foldl_ne {A V : Type} (key : A → String) (val : A → V) (k : String) :
    ∀ (l : List A) (acc : List (String × V)), (∀ a ∈ l, key a ≠ k) →
      objGet (l.foldl (fun m a => objSet m (key a) (val a)) acc) k = objGet acc k := by
  intro l
  induction l with
  | nil => intro acc _; rfl
  | cons a rest ih =>
      intro acc h
      simp only [List.foldl_cons]
      rw [ih _ (fun b hb => h b (List.mem_cons_of_mem a hb)),
          objGet_objSet_ne _ _ _ _ (h a (List.mem_cons_self a rest))]

/-- With pairwise-distinct keys, the fold of property assignments maps each
record's key to that record's value. -/
theorem objGet_foldl_mem {A V : Type} (key : A → String) (val : A → V) :
    ∀ (l : List A) (acc : List (String × V)) (a0 : A), a0 ∈ l →
      (l.map key).Nodup →
      objGet (l.foldl (fun m a => objSet m (key a) (val a)) acc) (key a0) = some (val a0) := by
  intro l
  induction l with
  | nil => intro acc a0 h; simp at h
  | cons a rest ih =>
      intro acc a0 hmem hnd
      simp only [List.map_cons, List.nodup_cons] at hnd
      rcases List.mem_cons.mp hmem with h | h
      · subst h
        simp only [List.foldl_cons]
        rw [objGet_foldl_ne]
        · exact objGet_objSet_self ..
        · intro b hb he
          exact hnd.1 (he ▸ (List.mem_map.mpr ⟨b, hb, rfl⟩))
      · simp only [List.foldl_cons]
        exact ih _ a0 h hnd.2

/-! Command queue shared by Client and ColumnFamily.

Every public method of Client (use, addKeySpace, dropKeySpace) and of
ColumnFamily (get, count, set, remove, enumerate, truncate) begins with

  if (!this.ready) { this.queue.push([arguments.callee, args]); return }

and otherwise runs its body.  A queued entry is the method itself together
with its original argument list, so commands are opaque values here; running
a command's body is recorded on an execution log. -/

/-- The owner state the queue discipline touches: the readiness flag, the
pending queue, and a log of the commands whose bodies have run, in order. -/
structure OwnerState (C : Type) where
  ready : Bool
  queue : List C
  executed : List C
deriving DecidableEq, Repr

/-- A public method invocation: not ready means append the call descriptor
to the queue and return (no side effect); ready means run the body (recorded
on the log). -/
def invoke {C : Type} (s : OwnerState C) (c : C) : OwnerState C :=
  if s.ready then { s with executed := s.executed ++ [c] }
  else { s with queue := s.queue ++ [c] }

/-- A sequence of public-method calls. -/
def submitAll {C : Type} (s : OwnerState C) (cs : List C) : OwnerState C :=
  cs.foldl invoke s

theorem invoke_ready_queue {C : Type} (s : OwnerState C) (c : C) (h : s.ready = true) :
    invoke s c = { s with executed := s.executed ++ [c] } := by
  simp [invoke, h]

/-- Client.prototype.dispatch: while ready and the queue is nonempty, shift
the head descriptor and re-invoke its method with its original arguments
(which, being ready, runs the body), then recurse. -/
def clientDispatch {C : Type} (s : OwnerState C) : OwnerState C :=
  if h : s.ready = true ∧ 0 < s.queue.length then
    clientDispatch (invoke { s with queue := s.queue.tail }
      (s.queue.head (List.length_pos.mp h.2)))
  else s
termination_by s.queue.length
decreasing_by
  simp [invoke, h.1, List.length_tail]
  omega

/-- ColumnFamily.prototype.dispatch: the same loop written with nested ifs. -/
def cfDispatch {C : Type} (s : OwnerState C) : OwnerState C :=
  if hr : s.ready = true then
    if h : 0 < s.queue.length then
      cfDispatch (invoke { s with queue := s.queue.tail }
        (s.queue.head (List.length_pos.mp h)))
    else s
  else s
termination_by s.queue.length
decreasing_by
  simp [invoke, hr, List.length_tail]
  omega

theorem clientDispatch_drains {C : Type} (q : List C) :
    ∀ ex : List C, clientDispatch (⟨true, q, ex⟩ : OwnerState C) = ⟨true, [], ex ++ q⟩ := by
  induction q with
  | nil => intro ex; unfold clientDispatch; simp
  | cons c rest ih =>
      intro ex
      unfold clientDispatch
      rw [dif_pos ⟨rfl, by simp⟩]
      simp only [List.tail_cons, List.head_cons]
      rw [invoke_ready_queue _ _ rfl]
      simpa [List.append_assoc] using ih (ex ++ [c])

theorem cfDispatch_drains {C : Type} (q : List C) :
    ∀ ex : List C, cfDispatch (⟨true, q, ex⟩ : OwnerState C) = ⟨true, [], ex ++ q⟩ := by
  induction q with
  | nil => intro ex; unfold cfDispatch; simp
  | cons c rest ih =>
      intro ex
      unfold cfDispatch
      rw [dif_pos rfl, dif_pos (by simp : 0 < (c :: rest).length)]
      simp only [List.tail_cons, List.head_cons]
      rw [invoke_ready_queue _ _ rfl]
      simpa [List.append_assoc] using ih (ex ++ [c])

theorem submitAll_not_ready {C : Type} (cs : List C) :
    ∀ (q ex : List C), submitAll (⟨false, q, ex⟩ : OwnerState C) cs = ⟨false, q ++ cs, ex⟩ := by
  induction cs with
  | nil => intro q ex; simp [submitAll]
  | cons c rest ih =>
      intro q ex
      simp only [submitAll, List.foldl_cons, invoke]
      simpa [List.append_assoc] using ih (q ++ [c]) ex

/-! Thrift request structures and the query-argument normalizer. -/

/-- Thrift SliceRange (the fields the constructor keeps). -/
structure SliceRange where
  start : String
  finish : String
  reversed : Bool
  count : Nat
deriving DecidableEq, Repr

/-- Thrift SlicePredicate: exactly one of the two fields is set by the
source. -/
structure SlicePredicate where
  column_names : Option (List String)
  slice_range : Option SliceRange
deriving DecidableEq, Repr

/-- Thrift ColumnParent. -/
structure ColumnParent where
  column_family : String
  super_column : Option String
deriving DecidableEq, Repr

/-- The default_options record built at the top of both parse functions:
start, finish, reversed, count, consistencyLevel. -/
structure RangeOptions where
  start : String
  finish : String
  reversed : Bool
  count : Nat
  consistencyLevel : Option CLevel
deriving DecidableEq, Repr

def default_options : RangeOptions :=
  ⟨"", "", false, 100, none⟩

/-- An options object supplied by the caller: any subset of the five
recognized fields may be present (absent fields are undefined). -/
structure OptObj where
  start : Option String
  finish : Option String
  reversed : Option Bool
  count : Option Nat
  consistencyLevel : Option CLevel
deriving DecidableEq, Repr

/-- An options object with no recognized field. -/
def emptyOptObj : OptObj := ⟨none, none, none, none, none⟩

/-- The for-in copy loop of the parse functions: each field present on the
given object overwrites the corresponding default; absent fields keep the
default value. -/
def mergeOptions (o : OptObj) : RangeOptions :=
  ⟨o.start.getD default_options.start,
   o.finish.getD default_options.finish,
   o.reversed.getD default_options.reversed,
   o.count.getD default_options.count,
   jsOrCL o.consistencyLevel default_options.consistencyLevel⟩

/-- Building a SliceRange from an options record keeps only the four wire
fields. -/
def sliceRangeOf (o : RangeOptions) : SliceRange :=
  ⟨o.start, o.finish, o.reversed, o.count⟩

/-- One positional argument of get/count/remove after the keys: a string, an
array of column names, or an options object.  A number or other shape is
outside the documented surface and is not modelled. -/
inductive QArg where
  | str (s : String)
  | arr (cs : List String)
  | opts (o : OptObj)
deriving DecidableEq, Repr

/-- In the column-names branch both parse functions run
options = args.shift() || default_options and then only read
options.consistencyLevel from it.  A string or array in that slot has no
consistencyLevel property, so the read yields undefined. -/
def rawConsistency : Option QArg → Option CLevel
  | some (QArg.opts o) => o.consistencyLevel
  | some _ => none
  | none => default_options.consistencyLevel

/-- ColumnFamily.prototype.parseArgumentsForStandardCF_.  A string first
argument has a slice method, so it is treated as a single column name; an
empty string is falsy and falls through to the default-range branch. -/
def parseArgumentsForStandardCF (name : String) (args : List QArg) :
    ColumnParent × SlicePredicate × Option CLevel :=
  match args with
  | [] =>
      (⟨name, none⟩, ⟨none, some (sliceRangeOf default_options)⟩,
       default_options.consistencyLevel)
  | QArg.str s :: rest =>
      if s = "" then
        (⟨name, none⟩, ⟨none, some (sliceRangeOf default_options)⟩,
         default_options.consistencyLevel)
      else
        (⟨name, none⟩, ⟨some [s], none⟩, rawConsistency rest.head?)
  | QArg.arr cs :: rest =>
      (⟨name, none⟩, ⟨some cs, none⟩, rawConsistency rest.head?)
  | QArg.opts o :: _ =>
      (⟨name, none⟩, ⟨none, some (sliceRangeOf (mergeOptions o))⟩,
       (mergeOptions o).consistencyLevel)

/-- ColumnFamily.prototype.parseArgumentsForSuperCF_.  A nonempty string
first argument is the super-column name; the next argument is then parsed
as column names or options.  An array first argument falls into the
options-merging for-in loop, which copies only index properties and so
leaves all five defaults untouched. -/
def parseArgumentsForSuperCF (name : String) (args : List QArg) :
    ColumnParent × SlicePredicate × Option CLevel :=
  match args with
  | [] =>
      (⟨name, none⟩, ⟨none, some (sliceRangeOf default_options)⟩,
       default_options.consistencyLevel)
  | QArg.str s :: rest =>
      if s = "" then
        (⟨name, none⟩, ⟨none, some (sliceRangeOf default_options)⟩,
         default_options.consistencyLevel)
      else
        match rest with
        | [] =>
            (⟨name, some s⟩, ⟨none, some (sliceRangeOf default_options)⟩,
             default_options.consistencyLevel)
        | QArg.str c :: rest2 =>
            if c = "" then
              (⟨name, some s⟩, ⟨none, some (sliceRangeOf default_options)⟩,
               default_options.consistencyLevel)
            else
              (⟨name, some s⟩, ⟨some [c], none⟩, rawConsistency rest2.head?)
        | QArg.arr cs :: rest2 =>
            (⟨name, some s⟩, ⟨some cs, none⟩, rawConsistency rest2.head?)
        | QArg.opts o :: _ =>
            (⟨name, some s⟩, ⟨none, some (sliceRangeOf (mergeOptions o))⟩,
             (mergeOptions o).consistencyLevel)
  | QArg.arr _ :: _ =>
      (⟨name, none⟩, ⟨none, some (sliceRangeOf default_options)⟩,
       default_options.consistencyLevel)
  | QArg.opts o :: _ =>
      (⟨name, none⟩, ⟨none, some (sliceRangeOf (mergeOptions o))⟩,
       (mergeOptions o).consistencyLevel)

/-- method_args, as both get and count compute it. -/
def parseMethodArgs (isSuper : Bool) (name : String) (args : List QArg) :
    ColumnParent × SlicePredicate × Option CLevel :=
  if isSuper then parseArgumentsForSuperCF name args
  else parseArgumentsForStandardCF name args

/-! Consistency-level resolution at the RPC boundary. -/

/-- The consistency level get passes to multiget_slice:
cl = method_args[2] || this.client_.defaultCL.read. -/
def getRpcCL (d : DefaultCL) (isSuper : Bool) (name : String) (args : List QArg) :
    Option CLevel :=
  jsOrCL (parseMethodArgs isSuper name args).2.2 d.read

/-- The consistency level count passes to multiget_count (the same
resolution as get). -/
def countRpcCL (d : DefaultCL) (isSuper : Bool) (name : String) (args : List QArg) :
    Option CLevel :=
  jsOrCL (parseMethodArgs isSuper name args).2.2 d.read

/-- The options object accepted by set: consistencyLevel and ttl. -/
structure SetOptions where
  consistencyLevel : Option CLevel
  ttl : Option Nat
deriving DecidableEq, Repr

/-- The consistency level set passes to batch_mutate:
cl = options.consistencyLevel || this.client_.defaultCL.write. -/
def setRpcCL (d : DefaultCL) (opts : SetOptions) : Option CLevel :=
  jsOrCL opts.consistencyLevel d.write

/-- The consistency level remove passes to batch_mutate:
cl = method_args[2] || this.client_.defaultCL.write. -/
def removeRpcCL (d : DefaultCL) (isSuper : Bool) (name : String) (args : List QArg) :
    Option CLevel :=
  jsOrCL (parseMethodArgs isSuper name args).2.2 d.write

/-! The get response path. -/

/-- Thrift Column as it appears in a read response. -/
structure Column where
  name : String
  value : String
deriving DecidableEq, Repr

/-- Thrift SuperColumn as it appears in a read response. -/
structure SuperColumn where
  name : String
  columns : List Column
deriving DecidableEq, Repr

/-- Thrift ColumnOrSuperColumn: exactly one branch is set. -/
inductive ColumnOrSuperColumn where
  | std (column : Column)
  | sup (super_column : SuperColumn)
deriving DecidableEq, Repr

/-- A flattened row value: column name to string value, or super-column
name to an inner name-to-value object. -/
inductive FlatValue where
  | str (s : String)
  | obj (m : List (String × String))
deriving DecidableEq, Repr

/-- The inner while (j--) loop over a super column's subcolumns: indices run
high to low, so the element at the lowest index is assigned last and wins on
a duplicate name. -/
def flattenSubColumns (cols : List Column) : List (String × String) :=
  cols.reverse.foldl (fun m c => objSet m c.name c.value) []

/-- The while (i--) loop flattening one row's column list into the object
obj[key]. -/
def flattenRow (cols : List ColumnOrSuperColumn) : List (String × FlatValue) :=
  cols.reverse.foldl
    (fun obj c =>
      match c with
      | ColumnOrSuperColumn.std col => objSet obj col.name (FlatValue.str col.value)
      | ColumnOrSuperColumn.sup sc => objSet obj sc.name (FlatValue.obj (flattenSubColumns sc.columns)))
    []

/-- The for (key in res) loop of get: obj[key] is set to the flattened row
for every row key present in the response, and to nothing else. -/
def flattenResponse (res : List (String × List ColumnOrSuperColumn)) :
    List (String × List (String × FlatValue)) :=
  res.foldl (fun obj kv => objSet obj kv.1 (flattenRow kv.2)) []

/-- The second argument get passes to the user callback.  In JavaScript the
three cases are dynamically typed; undef models the undefined value the
callback sees when a single requested key has no row in the response (and in
the error-branch call, where no second argument is passed at all). -/
inductive GetCallbackArg where
  | undef
  | rowMap (m : List (String × FlatValue))
  | keyed (m : List (String × List (String × FlatValue)))
deriving DecidableEq, Repr

/-- The unwrapping step at the end of get:
if (keys.length == 1) obj = obj[keys[0]]. -/
def getUnwrap (keys : List String) (obj : List (String × List (String × FlatValue))) :
    GetCallbackArg :=
  if keys.length = 1 then
    match objGet obj (keys.headD "") with
    | some m => GetCallbackArg.rowMap m
    | none => GetCallbackArg.undef
  else GetCallbackArg.keyed obj

/-- The value get delivers for a given requested key list and thrift
response map. -/
def getCallbackValue (keys : List String)
    (res : List (String × List ColumnOrSuperColumn)) : GetCallbackArg :=
  getUnwrap keys (flattenResponse res)

/-- The multiget_slice handler of get, recorded as the list of user-callback
invocations (error argument, second argument).  The error branch calls
callback(error) without returning, so the flattening code below it still
runs: for-in over an undefined res iterates nothing, and the callback is
then invoked a second time. -/
def getHandlerCalls (keys : List String) (error : Option String)
    (res : Option (List (String × List ColumnOrSuperColumn))) :
    List (Option String × GetCallbackArg) :=
  (match error with
   | some e => [(some e, GetCallbackArg.undef)]
   | none => []) ++
  [(error, getUnwrap keys (flattenResponse (res.getD [])))]

/-! The count response path. -/

/-- The second argument count passes to the user callback. -/
inductive CountCallbackArg where
  | undef
  | count (n : Nat)
  | keyed (m : List (String × Nat))
deriving DecidableEq, Repr

/-- The for (key in res) copy loop of count. -/
def countFlatten (res : List (String × Nat)) : List (String × Nat) :=
  res.foldl (fun obj kv => objSet obj kv.1 kv.2) []

/-- The unwrapping step at the end of count. -/
def countUnwrap (keys : List String) (obj : List (String × Nat)) : CountCallbackArg :=
  if keys.length = 1 then
    match objGet obj (keys.headD "") with
    | some n => CountCallbackArg.count n
    | none => CountCallbackArg.undef
  else CountCallbackArg.keyed obj

/-- The multiget_count handler of count, recorded as the list of
user-callback invocations.  Its error branch reads the variable obj before
the var obj = {} line runs; by JavaScript hoisting obj is still undefined
there, and the branch does not return either. -/
def countHandlerCalls (keys : List String) (error : Option String)
    (res : Option (List (String × Nat))) :
    List (Option String × CountCallbackArg) :=
  (match error with
   | some e => [(some e, CountCallbackArg.undef)]
   | none => []) ++
  [(error, countUnwrap keys (countFlatten (res.getD [])))]

/-! The set and remove write paths. -/

/-- A JavaScript value stored in a set value object, restricted to the
shapes exercised by the tests.  String coercion follows the language rules
for these shapes. -/
inductive JsValue where
  | str (s : String)
  | num (n : Nat)
  | boolean (b : Bool)
deriving DecidableEq, Repr

/-- JavaScript string coercion as performed by the expression '' + v. -/
def jsToString : JsValue → String
  | JsValue.str s => s
  | JsValue.num n => toString n
  | JsValue.boolean b => if b then "true" else "false"

/-- The ttl field written into each mutation: options.ttl || null, so a ttl
of 0 is falsy and becomes null. -/
def jsTtl : Option Nat → Option Nat
  | some t => if t = 0 then none else some t
  | none => none

/-- A column mutation as built by set for a flat table (the Column inside
Mutation.column_or_supercolumn). -/
structure MutColumn where
  name : String
  value : String
  timestamp : Nat
  ttl : Option Nat
deriving DecidableEq, Repr

/-- The standard branch of ColumnFamily.prototype.set: one mutation per own
property of the value object, in property order, with the stringified
value. -/
def setMutationsStandard (values : List (String × JsValue)) (ts : Nat)
    (ttlOpt : Option Nat) : List MutColumn :=
  values.map (fun pv => ⟨pv.1, jsToString pv.2, ts, jsTtl ttlOpt⟩)

/-- Model of the external store applying a batch of column mutations to one
row: each mutation writes its column value at its column name. -/
def applyColumnMutations (row : List (String × String)) (muts : List MutColumn) :
    List (String × String) :=
  muts.foldl (fun r m => objSet r m.name m.value) row

/-- A stored row rendered back as a thrift read response for that row. -/
def rowAsResponse (row : List (String × String)) : List ColumnOrSuperColumn :=
  row.map (fun nv => ColumnOrSuperColumn.std ⟨nv.1, nv.2⟩)

/-- Thrift Deletion as built by remove. -/
structure Deletion where
  timestamp : Nat
  super_column : Option String
  predicate : Option SlicePredicate
deriving DecidableEq, Repr

/-- ColumnFamily.prototype.remove: the single Deletion mutation it batches.
The predicate is kept only when it carries a column_names list (a JavaScript
array, even an empty one, is truthy); a range predicate is replaced by null,
deleting the whole row or the whole named super column. -/
def removeDeletion (isSuper : Bool) (name : String) (args : List QArg) (ts : Nat) :
    Deletion :=
  let ma := parseMethodArgs isSuper name args
  ⟨ts, ma.1.super_column,
   if ma.2.1.column_names.isSome then some ma.2.1 else none⟩

/-! The ColumnFamily keyspaceSet handler. -/

/-- The schema fields of a column-family definition that the handler
consults. -/
structure CfDef where
  column_type : String
deriving DecidableEq, Repr

/-- The ColumnFamily fields touched by the keyspaceSet listener.  The
column_type field is undefined (none) until a definition has been copied
onto the handle. -/
structure CfState (C : Type) where
  name : String
  ready : Bool
  queue : List C
  executed : List C
  column_type : Option String
  isSuper : Bool
deriving DecidableEq, Repr

/-- The queue-owner view of a ColumnFamily. -/
def cfOwner {C : Type} (cf : CfState C) : OwnerState C :=
  ⟨cf.ready, cf.queue, cf.executed⟩

/-- The keyspaceSet listener installed by the ColumnFamily constructor.
When the definition map has no entry for this handle's name it emits an
error on the client, but it does not return: the property-copy loop then
iterates nothing (for-in over undefined), isSuper is computed from the
still-undefined column_type, ready is set to true and the queue is
dispatched anyway.  The result is the new handle state paired with the
error events emitted on the client. -/
def cfOnKeyspaceSet {C : Type} (cf : CfState C) (cfdefs : List (String × CfDef)) :
    CfState C × List String :=
  let hit := objGet cfdefs cf.name
  let errors := match hit with
    | none => ["Column Family " ++ cf.name ++ " does not exist."]
    | some _ => []
  let ctype := match hit with
    | some d => some d.column_type
    | none => cf.column_type
  let super := decide (ctype = some "Super")
  let drained := cfDispatch ⟨true, cf.queue, cf.executed⟩
  (⟨cf.name, true, drained.queue, drained.executed, ctype, super⟩, errors)

/-! The range enumerator. -/

/-- A row as returned by get_range_slices: a key and the row's column list.
Keys are modelled as naturals with the empty start key modelled as 0, which
is less than or equal to every key just as the empty string is in key
order. -/
structure ERow where
  key : Nat
  columns : List Column
deriving DecidableEq, Repr

/-- Model of the external get_range_slices call: the first count rows of the
table whose keys are at least start_key (the start key is inclusive, as in
the thrift KeyRange contract the source relies on). -/
def get_range_slices (table : List ERow) (start_key : Nat) (count : Nat) :
    List ERow :=
  (table.dropWhile (fun r => r.key < start_key)).take count

/-- One range fetch issued by enumerate, as it reaches the RPC layer. -/
structure RangeFetch where
  start_key : Nat
  count : Nat
  consistency : CLevel
deriving DecidableEq, Repr

/-- The observable outcome of an enumerate run: the range fetches issued,
the rows delivered to the per-row callback in order, and how often the
completion and error callbacks fired.  fuelOut records that the modelling
fuel ran out before the scan finished. -/
structure EnumResult where
  fetches : List RangeFetch
  delivered : List (Nat × List (String × String))
  dones : Nat
  errs : Nat
  fuelOut : Bool
deriving DecidableEq, Repr

/-- The forEach loop building the columns object passed to the per-row
callback. -/
def enumColumns (cols : List Column) : List (String × String) :=
  cols.foldl (fun m c => objSet m c.name c.value) []

/-- The outcome of processing one fetched page. -/
inductive PageOutcome where
  | nextPage (boundary : Nat)
  | finished
  | failed
deriving DecidableEq, Repr

/-- The rowback loop over one page, starting at index i.  An undefined slot
means the page is exhausted: fewer rows than the stride signal completion,
otherwise the unexpected-undefined error fires.  The slot at index
stride - 1 is not delivered; its key seeds the next page fetch.  Every
other defined slot is flattened and delivered, and the loop continues at
i + 1 when the per-row callback acknowledges. -/
def rowback (stride : Nat) (page : List ERow) (i : Nat) :
    List (Nat × List (String × String)) × PageOutcome :=
  if h : i < page.length then
    let row := page.get ⟨i, h⟩
    if stride - 1 = i then ([], PageOutcome.nextPage row.key)
    else
      let rest := rowback stride page (i + 1)
      ((row.key, enumColumns row.columns) :: rest.1, rest.2)
  else
    if stride > page.length then ([], PageOutcome.finished)
    else ([], PageOutcome.failed)
termination_by page.length - i
decreasing_by
  omega

/-- The page-fetch loop of enumerate: fetch a page of stride rows at the
current start key (always at consistency level ONE), run the rowback loop
over it, and continue at the boundary key it hands back.  The fuel bounds
the number of pages; a run that ends by completion or error never consumes
it. -/
def enumGo (stride : Nat) (table : List ERow) : Nat → Nat → EnumResult
  | 0, _ => ⟨[], [], 0, 0, true⟩
  | fuel + 1, start =>
      let page := get_range_slices table start stride
      let pr := rowback stride page 0
      match pr.2 with
      | PageOutcome.finished => ⟨[⟨start, stride, CLevel.ONE⟩], pr.1, 1, 0, false⟩
      | PageOutcome.failed => ⟨[⟨start, stride, CLevel.ONE⟩], pr.1, 0, 1, false⟩
      | PageOutcome.nextPage b =>
          let rest := enumGo stride table fuel b
          ⟨⟨start, stride, CLevel.ONE⟩ :: rest.fetches, pr.1 ++ rest.delivered,
           rest.dones, rest.errs, rest.fuelOut⟩

/-- JavaScript a || b for numbers: 0 is falsy.  Used for
options.stride = options.stride || 100. -/
def jsOrNat : Option Nat → Nat → Nat
  | some n, d => if n = 0 then d else n
  | none, d => d

/-- ColumnFamily.prototype.enumerate: the scan starts at the empty key with
the configured stride (default 100).  The session's default consistency
pair and the supplied options play no part in the consistency level of the
issued fetches, which is the literal ConsistencyLevel.ONE in the source. -/
def enumerate (strideOpt : Option Nat) (table : List ERow) (fuel : Nat) : EnumResult :=
  enumGo (jsOrNat strideOpt 100) table fuel 0

/-- The behavior enumerate shows on a table when the claimed delivery and
completion never occur for any number of pages. -/
def enumNeverDelivers (strideOpt : Option Nat) (table : List ERow) : Prop :=
  ∀ fuel : Nat, (enumerate strideOpt table fuel).delivered = [] ∧
    (enumerate strideOpt table fuel).dones = 0

/-! Helper lemmas. -/

theorem jsOrCL_isSome (a b : Option CLevel) (hb : b.isSome = true) :
    (jsOrCL a b).isSome = true := by
  cases a <;> simp [jsOrCL, hb]

theorem jsOrCL_some (a : Option CLevel) (b : Option CLevel) (c : CLevel)
    (ha : a = some c) : jsOrCL a b = some c := by
  rw [ha]; rfl

theorem jsOrCL_none (b : Option CLevel) : jsOrCL none b = b := rfl

/-- The default consistency pair of a Client is concrete (non-null) after
the constructor and stays concrete across any sequence of setter calls. -/
theorem applyCLCalls_isSome (calls : List CLArg) :
    ∀ d : DefaultCL, d.read.isSome = true → d.write.isSome = true →
      ((applyCLCalls d calls).read.isSome = true ∧
       (applyCLCalls d calls).write.isSome = true) := by
  induction calls with
  | nil => intro d h1 h2; exact ⟨h1, h2⟩
  | cons a rest ih =>
      intro d h1 h2
      simp only [applyCLCalls, List.foldl_cons]
      exact ih (consistencyLevelSet d a)
        (jsOrCL_isSome _ _ (by simp)) (jsOrCL_isSome _ _ (by simp))

theorem foldl_objSet_eq_append {A V : Type} (key : A → String) (val : A → V) :
    ∀ (l : List A) (acc : List (String × V)),
      (∀ a ∈ l, objGet acc (key a) = none) → (l.map key).Nodup →
      l.foldl (fun m a => objSet m (key a) (val a)) acc
        = acc ++ l.map (fun a => (key a, val a)) := by
  intro l
  induction l with
  | nil => intro acc _ _; simp
  | cons a rest ih =>
      intro acc habs hnd
      simp only [List.map_cons, List.nodup_cons] at hnd
      simp only [List.foldl_cons]
      rw [objSet_absent _ _ _ (habs a (List.mem_cons_self a rest))]
      rw [ih (acc ++ [(key a, val a)])]
      · simp
      · intro b hb
        rw [objGet_append]
        rw [habs b (List.mem_cons_of_mem a hb)]
        have hne : key a ≠ key b :=
          fun he => hnd.1 (he ▸ List.mem_map.mpr ⟨b, hb, rfl⟩)
        simp [objGet, hne]
      · exact hnd.2

/-! Claim theorems. -/

/-- C1: while an owner (Client or ColumnFamily) is not ready, every public
call is appended to its queue and has no side effect; on the readiness
transition both dispatch loops drain the queue head-to-tail, re-invoking
each descriptor under the ready state, so the execution log extends in
exactly the submission order and the queue empties; a call arriving when the
owner is ready runs immediately and is not queued. -/
theorem C1_queue_fifo {C : Type} (cs q ex : List C) (c : C) :
    (submitAll (⟨false, [], ex⟩ : OwnerState C) cs).queue = cs
    ∧ (submitAll (⟨false, [], ex⟩ : OwnerState C) cs).executed = ex
    ∧ clientDispatch (⟨true, cs, ex⟩ : OwnerState C) = ⟨true, [], ex ++ cs⟩
    ∧ cfDispatch (⟨true, cs, ex⟩ : OwnerState C) = ⟨true, [], ex ++ cs⟩
    ∧ invoke (⟨true, q, ex⟩ : OwnerState C) c = ⟨true, q, ex ++ [c]⟩
    ∧ invoke (⟨false, q, ex⟩ : OwnerState C) c = ⟨false, q ++ [c], ex⟩ := by
  refine ⟨?_, ?_, clientDispatch_drains cs ex, cfDispatch_drains cs ex, ?_, ?_⟩
  · rw [submitAll_not_ready]; simp
  · rw [submitAll_not_ready]
  · simp [invoke]
  · simp [invoke]

/-- C4 (code bug): when the published schema has no definition for the
handle's name, the keyspaceSet listener emits the error event on the
client, but because the error branch does not return it still marks the
handle ready and drains its queue: with two commands queued on a handle
named Missing and a schema containing only Standard, the handler reports
the error yet ends with ready true, an empty queue, and both commands
executed. -/
theorem C4_missing_schema_still_drains :
    (cfOnKeyspaceSet (⟨"Missing", false, ["op1", "op2"], [], none, false⟩ : CfState String)
        [("Standard", ⟨"Standard"⟩)]).2
      = ["Column Family Missing does not exist."]
    ∧ (cfOnKeyspaceSet (⟨"Missing", false, ["op1", "op2"], [], none, false⟩ : CfState String)
        [("Standard", ⟨"Standard"⟩)]).1.ready = true
    ∧ (cfOnKeyspaceSet (⟨"Missing", false, ["op1", "op2"], [], none, false⟩ : CfState String)
        [("Standard", ⟨"Standard"⟩)]).1.queue = []
    ∧ (cfOnKeyspaceSet (⟨"Missing", false, ["op1", "op2"], [], none, false⟩ : CfState String)
        [("Standard", ⟨"Standard"⟩)]).1.executed = ["op1", "op2"] := by
  have hd := cfDispatch_drains (C := String) ["op1", "op2"] []
  refine ⟨rfl, rfl, ?_, ?_⟩
  · simp [cfOnKeyspaceSet, objGet, hd]
  · simp [cfOnKeyspaceSet, objGet, hd]

/-- C5: for get, count, set and remove, the consistency level handed to the
RPC layer is always concrete for every client state reachable from the
constructor through setter calls; it is the per-call override when one was
supplied and the session's default read level (get, count) or write level
(set, remove) when not. -/
theorem C5_consistency_concrete (calls : List CLArg) (isSuper : Bool) (name : String)
    (args : List QArg) (sopts : SetOptions) :
    ((getRpcCL (applyCLCalls initDefaultCL calls) isSuper name args).isSome = true
      ∧ (countRpcCL (applyCLCalls initDefaultCL calls) isSuper name args).isSome = true
      ∧ (setRpcCL (applyCLCalls initDefaultCL calls) sopts).isSome = true
      ∧ (removeRpcCL (applyCLCalls initDefaultCL calls) isSuper name args).isSome = true)
    ∧ (∀ c, (parseMethodArgs isSuper name args).2.2 = some c →
        getRpcCL (applyCLCalls initDefaultCL calls) isSuper name args = some c
        ∧ countRpcCL (applyCLCalls initDefaultCL calls) isSuper name args = some c
        ∧ removeRpcCL (applyCLCalls initDefaultCL calls) isSuper name args = some c)
    ∧ ((parseMethodArgs isSuper name args).2.2 = none →
        getRpcCL (applyCLCalls initDefaultCL calls) isSuper name args
          = (applyCLCalls initDefaultCL calls).read
        ∧ countRpcCL (applyCLCalls initDefaultCL calls) isSuper name args
          = (applyCLCalls initDefaultCL calls).read
        ∧ removeRpcCL (applyCLCalls initDefaultCL calls) isSuper name args
          = (applyCLCalls initDefaultCL calls).write)
    ∧ (∀ c, sopts.consistencyLevel = some c →
        setRpcCL (applyCLCalls initDefaultCL calls) sopts = some c)
    ∧ (sopts.consistencyLevel = none →
        setRpcCL (applyCLCalls initDefaultCL calls) sopts
          = (applyCLCalls initDefaultCL calls).write) := by
  obtain ⟨hr, hw⟩ := applyCLCalls_isSome calls initDefaultCL (by rfl) (by rfl)
  refine ⟨⟨jsOrCL_isSome _ _ hr, jsOrCL_isSome _ _ hr, jsOrCL_isSome _ _ hw,
      jsOrCL_isSome _ _ hw⟩, ?_, ?_, ?_, ?_⟩
  · intro c hc
    exact ⟨jsOrCL_some _ _ _ hc, jsOrCL_some _ _ _ hc, jsOrCL_some _ _ _ hc⟩
  · intro hc
    unfold getRpcCL countRpcCL removeRpcCL
    rw [hc]
    exact ⟨rfl, rfl, rfl⟩
  · intro c hc
    exact jsOrCL_some _ _ _ hc
  · intro hc
    unfold setRpcCL
    rw [hc]
    rfl

/-- C5 witness: with one setter call and an options override of TWO, get
resolves to the override; with no override, set resolves to the default
write level. -/
theorem C5_consistency_concrete_witness :
    getRpcCL (applyCLCalls initDefaultCL [⟨some CLevel.ONE, none⟩]) false "cf"
        [QArg.opts ⟨none, none, none, none, some CLevel.TWO⟩] = some CLevel.TWO
    ∧ setRpcCL (applyCLCalls initDefaultCL [⟨some CLevel.ONE, none⟩]) ⟨none, none⟩
        = (applyCLCalls initDefaultCL [⟨some CLevel.ONE, none⟩]).write :=
  ⟨((C5_consistency_concrete [⟨some CLevel.ONE, none⟩] false "cf"
      [QArg.opts ⟨none, none, none, none, some CLevel.TWO⟩] ⟨none, none⟩).2.1
      CLevel.TWO rfl).1,
   (C5_consistency_concrete [⟨some CLevel.ONE, none⟩] false "cf"
      [QArg.opts ⟨none, none, none, none, some CLevel.TWO⟩] ⟨none, none⟩).2.2.2.2 rfl⟩

/-- C6: each call to the consistency-level setter re-derives both default
levels from the supplied object alone: the result does not depend on the
previous pair, a present field becomes the new default, and an absent field
becomes QUORUM. -/
theorem C6_consistency_setter (prev prev2 : DefaultCL) (a : CLArg) :
    consistencyLevelSet prev a = consistencyLevelSet prev2 a
    ∧ (∀ c, a.read = some c → (consistencyLevelSet prev a).read = some c)
    ∧ (a.read = none → (consistencyLevelSet prev a).read = some CLevel.QUORUM)
    ∧ (∀ c, a.write = some c → (consistencyLevelSet prev a).write = some c)
    ∧ (a.write = none → (consistencyLevelSet prev a).write = some CLevel.QUORUM) := by
  refine ⟨rfl, ?_, ?_, ?_, ?_⟩
  · intro c hc; simp [consistencyLevelSet, hc, jsOrCL]
  · intro hc; simp [consistencyLevelSet, hc, jsOrCL]
  · intro c hc; simp [consistencyLevelSet, hc, jsOrCL]
  · intro hc; simp [consistencyLevelSet, hc, jsOrCL]

/-- C6 witness: a call supplying only a read level of ONE sets read to ONE
and resets write to QUORUM, from any previous pair. -/
theorem C6_consistency_setter_witness :
    consistencyLevelSet ⟨some CLevel.ALL, some CLevel.ANY⟩ ⟨some CLevel.ONE, none⟩
      = consistencyLevelSet ⟨none, none⟩ ⟨some CLevel.ONE, none⟩
    ∧ (consistencyLevelSet ⟨some CLevel.ALL, some CLevel.ANY⟩ ⟨some CLevel.ONE, none⟩).read
      = some CLevel.ONE
    ∧ (consistencyLevelSet ⟨some CLevel.ALL, some CLevel.ANY⟩ ⟨some CLevel.ONE, none⟩).write
      = some CLevel.QUORUM :=
  ⟨(C6_consistency_setter ⟨some CLevel.ALL, some CLevel.ANY⟩ ⟨none, none⟩
      ⟨some CLevel.ONE, none⟩).1,
   (C6_consistency_setter ⟨some CLevel.ALL, some CLevel.ANY⟩ ⟨none, none⟩
      ⟨some CLevel.ONE, none⟩).2.1 CLevel.ONE rfl,
   (C6_consistency_setter ⟨some CLevel.ALL, some CLevel.ANY⟩ ⟨none, none⟩
      ⟨some CLevel.ONE, none⟩).2.2.2.2 rfl⟩

/-- C9: when the RPC layer reports an error to get or count, the user
callback is invoked exactly twice: once from the error branch (for count
with a still-undefined second argument, by variable hoisting) and once more
after the result-flattening code runs over the undefined response, because
the error branch does not return. -/
theorem C9_error_double_callback (keys : List String) (e : String) :
    getHandlerCalls keys (some e) none
      = [(some e, GetCallbackArg.undef), (some e, getUnwrap keys [])]
    ∧ countHandlerCalls keys (some e) none
      = [(some e, CountCallbackArg.undef), (some e, countUnwrap keys [])] := by
  constructor
  · simp [getHandlerCalls, flattenResponse]
  · simp [countHandlerCalls, countFlatten]

/-- C3: a get that requested exactly one key delivers that row's flattened
value mapping directly (and the undefined value when the response has no
such row), not wrapped in a keyed mapping; a get that requested more than
one key delivers the keyed mapping built from exactly the row keys present
in the response, so a requested key with no row in the response is absent
from the result. -/
theorem C3_get_unwrap (keys : List String) (res : List (String × List ColumnOrSuperColumn)) :
    (∀ k cols, keys = [k] → (res.map Prod.fst).Nodup → (k, cols) ∈ res →
      getCallbackValue keys res = GetCallbackArg.rowMap (flattenRow cols))
    ∧ (∀ k, keys = [k] → (∀ p ∈ res, p.1 ≠ k) →
      getCallbackValue keys res = GetCallbackArg.undef)
    ∧ (keys.length ≠ 1 →
      getCallbackValue keys res = GetCallbackArg.keyed (flattenResponse res)
      ∧ ∀ k, (∀ p ∈ res, p.1 ≠ k) → objGet (flattenResponse res) k = none) := by
  have habs : ∀ k, (∀ p ∈ res, p.1 ≠ k) → objGet (flattenResponse res) k = none := by
    intro k h
    unfold flattenResponse
    have := objGet_foldl_ne (V := List (String × FlatValue)) Prod.fst
      (fun p => flattenRow p.2) k res [] h
    simpa [objGet] using this
  refine ⟨?_, ?_, ?_⟩
  · intro k cols hk hnd hmem
    subst hk
    have hsome : objGet (flattenResponse res) k = some (flattenRow cols) := by
      unfold flattenResponse
      exact objGet_foldl_mem Prod.fst (fun p => flattenRow p.2) res [] (k, cols) hmem hnd
    simp [getCallbackValue, getUnwrap, hsome]
  · intro k hk h
    subst hk
    simp [getCallbackValue, getUnwrap, habs k h]
  · intro hlen
    exact ⟨by simp [getCallbackValue, getUnwrap, hlen], habs⟩

/-- C3 witness: a single-key get returns the bare row mapping, a two-key get
returns the keyed mapping, and the key with no row is absent. -/
theorem C3_get_unwrap_witness :
    getCallbackValue ["r1"] [("r1", [ColumnOrSuperColumn.std ⟨"a", "1"⟩])]
      = GetCallbackArg.rowMap [("a", FlatValue.str "1")]
    ∧ getCallbackValue ["r1", "r2"] [("r1", [ColumnOrSuperColumn.std ⟨"a", "1"⟩])]
      = GetCallbackArg.keyed [("r1", [("a", FlatValue.str "1")])]
    ∧ objGet (flattenResponse [("r1", [ColumnOrSuperColumn.std ⟨"a", "1"⟩])]) "r2" = none :=
  ⟨((C3_get_unwrap ["r1"] [("r1", [ColumnOrSuperColumn.std ⟨"a", "1"⟩])]).1
      "r1" [ColumnOrSuperColumn.std ⟨"a", "1"⟩] rfl (by decide) (by decide)).trans (by decide),
   (((C3_get_unwrap ["r1", "r2"] [("r1", [ColumnOrSuperColumn.std ⟨"a", "1"⟩])]).2.2
      (by decide)).1).trans (by decide),
   ((C3_get_unwrap ["r1", "r2"] [("r1", [ColumnOrSuperColumn.std ⟨"a", "1"⟩])]).2.2
      (by decide)).2 "r2" (by decide)⟩

/-- C7: for a flat table, set builds exactly one column mutation per own
property of the value object, carrying that property's stringified value;
applying the batch to the store and reading the row back through get
returns every written property as its string form. -/
theorem C7_set_then_get (values : List (String × JsValue)) (ts : Nat) (ttlOpt : Option Nat)
    (key : String) :
    (setMutationsStandard values ts ttlOpt).length = values.length
    ∧ (setMutationsStandard values ts ttlOpt).map MutColumn.name = values.map Prod.fst
    ∧ (setMutationsStandard values ts ttlOpt).map MutColumn.value
        = values.map (fun pv => jsToString pv.2)
    ∧ ((values.map Prod.fst).Nodup → ∀ p v, (p, v) ∈ values →
        ∃ m, getCallbackValue [key]
            [(key, rowAsResponse (applyColumnMutations [] (setMutationsStandard values ts ttlOpt)))]
            = GetCallbackArg.rowMap m
          ∧ objGet m p = some (FlatValue.str (jsToString v))) := by
  have hnames : (setMutationsStandard values ts ttlOpt).map MutColumn.name
      = values.map Prod.fst := by
    simp [setMutationsStandard]
  refine ⟨by simp [setMutationsStandard], hnames, by simp [setMutationsStandard], ?_⟩
  intro hnd p v hmem
  have hstored : applyColumnMutations [] (setMutationsStandard values ts ttlOpt)
      = values.map (fun pv => (pv.1, jsToString pv.2)) := by
    unfold applyColumnMutations
    rw [foldl_objSet_eq_append MutColumn.name MutColumn.value _ []
      (fun a _ => rfl) (by rw [hnames]; exact hnd)]
    simp [setMutationsStandard]
  refine ⟨flattenRow (rowAsResponse (applyColumnMutations []
    (setMutationsStandard values ts ttlOpt))), ?_, ?_⟩
  · simp [getCallbackValue, flattenResponse, objSet, getUnwrap, objGet]
  · rw [hstored]
    unfold flattenRow rowAsResponse
    rw [← List.map_reverse, List.foldl_map]
    have hm : (p, jsToString v) ∈ (values.map (fun pv => (pv.1, jsToString pv.2))).reverse :=
      List.mem_reverse.mpr (List.mem_map.mpr ⟨(p, v), hmem, rfl⟩)
    have hn : (((values.map (fun pv => (pv.1, jsToString pv.2))).reverse).map Prod.fst).Nodup := by
      simpa [List.nodup_reverse, Function.comp] using hnd
    have := objGet_foldl_mem (V := FlatValue) Prod.fst (fun nv => FlatValue.str nv.2)
      ((values.map (fun pv => (pv.1, jsToString pv.2))).reverse) [] (p, jsToString v) hm hn
    simpa using this

/-- C7 witness: setting two numeric properties and reading the row back
yields both values as strings. -/
theorem C7_set_then_get_witness :
    ∃ m, getCallbackValue ["r"]
        [("r", rowAsResponse (applyColumnMutations []
          (setMutationsStandard [("a", JsValue.num 1), ("b", JsValue.num 2)] 5 none)))]
        = GetCallbackArg.rowMap m
      ∧ objGet m "a" = some (FlatValue.str "1") :=
  (C7_set_then_get [("a", JsValue.num 1), ("b", JsValue.num 2)] 5 none "r").2.2.2
    (by decide) "a" (JsValue.num 1) (by decide)

/-- Whenever the normalizer resolves an explicit column-name list, the
predicate it returns carries that list and no slice range. -/
theorem parse_columns_no_range (isSuper : Bool) (name : String) (args : List QArg)
    (cs : List String)
    (h : (parseMethodArgs isSuper name args).2.1.column_names = some cs) :
    (parseMethodArgs isSuper name args).2.1 = ⟨some cs, none⟩ := by
  cases isSuper with
  | false =>
      simp only [parseMethodArgs, Bool.false_eq_true, if_false] at h ⊢
      match args with
      | [] => simp [parseArgumentsForStandardCF] at h
      | QArg.str s :: rest =>
          by_cases hs : s = "" <;>
            simp_all [parseArgumentsForStandardCF]
      | QArg.arr cs2 :: rest =>
          simp_all [parseArgumentsForStandardCF]
      | QArg.opts o :: rest =>
          simp [parseArgumentsForStandardCF] at h
  | true =>
      simp only [parseMethodArgs, if_true] at h ⊢
      match args with
      | [] => simp [parseArgumentsForSuperCF] at h
      | QArg.str s :: rest =>
          by_cases hs : s = ""
          · simp_all [parseArgumentsForSuperCF]
          · match rest with
            | [] => simp_all [parseArgumentsForSuperCF]
            | QArg.str c :: rest2 =>
                by_cases hc : c = "" <;> simp_all [parseArgumentsForSuperCF]
            | QArg.arr cs2 :: rest2 => simp_all [parseArgumentsForSuperCF]
            | QArg.opts o :: rest2 => simp_all [parseArgumentsForSuperCF]
      | QArg.arr cs2 :: rest =>
          simp [parseArgumentsForSuperCF] at h
      | QArg.opts o :: rest =>
          simp [parseArgumentsForSuperCF] at h

/-- C8: remove keeps the resolved predicate on the Deletion exactly when it
carries an explicit column-name list, in which case the deletion targets
only those columns (no slice range is attached) under the resolved
super-column scope, and otherwise attaches a null predicate, deleting the
whole row or the whole named super column at the generated timestamp. -/
theorem C8_remove_deletion (isSuper : Bool) (name : String) (args : List QArg) (ts : Nat) :
    (removeDeletion isSuper name args ts).timestamp = ts
    ∧ (removeDeletion isSuper name args ts).super_column
        = (parseMethodArgs isSuper name args).1.super_column
    ∧ (∀ cs, (parseMethodArgs isSuper name args).2.1.column_names = some cs →
        (removeDeletion isSuper name args ts).predicate
          = some (⟨some cs, none⟩ : SlicePredicate))
    ∧ ((parseMethodArgs isSuper name args).2.1.column_names = none →
        (removeDeletion isSuper name args ts).predicate = none)
    ∧ (∀ cs, (removeDeletion false name [QArg.arr cs] ts).predicate
        = some (⟨some cs, none⟩ : SlicePredicate))
    ∧ (removeDeletion false name [] ts).predicate = none
    ∧ (∀ s cs, s ≠ "" →
        (removeDeletion true name [QArg.str s, QArg.arr cs] ts).predicate
          = some (⟨some cs, none⟩ : SlicePredicate)
        ∧ (removeDeletion true name [QArg.str s, QArg.arr cs] ts).super_column = some s)
    ∧ (∀ s, s ≠ "" →
        (removeDeletion true name [QArg.str s] ts).predicate = none
        ∧ (removeDeletion true name [QArg.str s] ts).super_column = some s) := by
  refine ⟨rfl, rfl, ?_, ?_, ?_, ?_, ?_, ?_⟩
  · intro cs h
    have hp := parse_columns_no_range isSuper name args cs h
    simp [removeDeletion, hp]
  · intro h
    simp [removeDeletion, h, Option.isSome]
  · intro cs
    simp [removeDeletion, parseMethodArgs, parseArgumentsForStandardCF]
  · simp [removeDeletion, parseMethodArgs, parseArgumentsForStandardCF, Option.isSome]
  · intro s cs hs
    constructor <;>
      simp [removeDeletion, parseMethodArgs, parseArgumentsForSuperCF, hs]
  · intro s hs
    constructor <;>
      simp [removeDeletion, parseMethodArgs, parseArgumentsForSuperCF, hs, Option.isSome]

/-- C8 witness: an explicit two-column remove keeps exactly that predicate;
a bare remove of a super-column scope deletes the whole super column with a
null predicate. -/
theorem C8_remove_deletion_witness :
    (removeDeletion false "Standard" [QArg.arr ["a", "b"]] 7).predicate
      = some (⟨some ["a", "b"], none⟩ : SlicePredicate)
    ∧ (removeDeletion true "Super" [QArg.str "sc"] 7).predicate = none
    ∧ (removeDeletion true "Super" [QArg.str "sc"] 7).super_column = some "sc" :=
  ⟨(C8_remove_deletion false "Standard" [QArg.arr ["a", "b"]] 7).2.2.2.2.1 ["a", "b"],
   ((C8_remove_deletion true "Super" [QArg.str "sc"] 7).2.2.2.2.2.2.2 "sc" (by decide)).1,
   ((C8_remove_deletion true "Super" [QArg.str "sc"] 7).2.2.2.2.2.2.2 "sc" (by decide)).2⟩

/-- Every fetch recorded by the page loop carries the literal consistency
level ONE. -/
theorem enumGo_fetches_one (stride : Nat) (table : List ERow) :
    ∀ (fuel start : Nat),
      ((enumGo stride table fuel start).fetches.all
        (fun f => decide (f.consistency = CLevel.ONE))) = true := by
  intro fuel
  induction fuel with
  | zero => intro start; simp [enumGo]
  | succ fuel ih =>
      intro start
      cases h : (rowback stride (get_range_slices table start stride) 0).2 with
      | finished => simp [enumGo, h]
      | failed => simp [enumGo, h]
      | nextPage b => simp [enumGo, h, ih b]

/-- C10: every range fetch enumerate issues, for any stride option, table
and number of pages, reaches the RPC layer at consistency level ONE; the
session's default consistency pair and the other options never flow into
that argument. -/
theorem C10_enumerate_consistency_one (strideOpt : Option Nat) (table : List ERow)
    (fuel : Nat) :
    ((enumerate strideOpt table fuel).fetches.all
      (fun f => decide (f.consistency = CLevel.ONE))) = true :=
  enumGo_fetches_one (jsOrNat strideOpt 100) table fuel 0

/-! Lemmas for the enumerator. -/

theorem dropWhile_key_lt_zero (table : List ERow) :
    table.dropWhile (fun r => decide (r.key < 0)) = table := by
  cases table with
  | nil => rfl
  | cons t ts =>
      rw [List.dropWhile_cons_of_neg (by simp)]

/-- On a table sorted by strictly increasing keys, dropping every row whose
key precedes the key at index j drops exactly the first j rows: the range
fetch seeded with a fetched row's key resumes at that very row. -/
theorem dropWhile_key_lt_get :
    ∀ (table : List ERow), table.Pairwise (fun a b => a.key < b.key) →
      ∀ (j : Nat) (hj : j < table.length),
        table.dropWhile (fun r => decide (r.key < (table.get ⟨j, hj⟩).key))
          = table.drop j := by
  intro table
  induction table with
  | nil => intro _ j hj; simp at hj
  | cons t ts ih =>
      intro hsort j hj
      obtain ⟨hhead, htail⟩ := List.pairwise_cons.mp hsort
      cases j with
      | zero =>
          rw [List.dropWhile_cons_of_neg (by simp)]
          rfl
      | succ j =>
          have hjt : j < ts.length := by simpa using hj
          rw [List.dropWhile_cons_of_pos
            (by simpa using hhead (ts.get ⟨j, hjt⟩) (List.get_mem ts j hjt))]
          exact ih htail j hjt

/-- The rowback loop over a page shorter than the stride delivers every row
from the current index on and then reports completion. -/
theorem rowback_short (stride : Nat) (page : List ERow) (hlen : page.length < stride) :
    ∀ i : Nat, rowback stride page i
      = ((page.drop i).map (fun r => (r.key, enumColumns r.columns)),
         PageOutcome.finished) := by
  have key : ∀ fuel i : Nat, page.length - i ≤ fuel →
      rowback stride page i
        = ((page.drop i).map (fun r => (r.key, enumColumns r.columns)),
           PageOutcome.finished) := by
    intro fuel
    induction fuel with
    | zero =>
        intro i hi
        have hge : page.length ≤ i := by omega
        unfold rowback
        rw [dif_neg (by omega), if_pos hlen, List.drop_eq_nil_of_le hge]
        simp
    | succ fuel ih =>
        intro i hi
        by_cases hlt : i < page.length
        · have hne : ¬ (stride - 1 = i) := by omega
          unfold rowback
          simp only [dif_pos hlt, if_neg hne]
          rw [ih (i + 1) (by omega), List.drop_eq_getElem_cons hlt]
          simp
          rw [List.drop_eq_getElem_cons
            (by simpa using hlt :
              i < (page.map (fun r => (r.key, enumColumns r.columns))).length)]
          simp
        · unfold rowback
          rw [dif_neg hlt, if_pos hlen, List.drop_eq_nil_of_le (by omega)]
          simp
  intro i
  exact key (page.length - i) i (Nat.le_refl _)

/-- The rowback loop over a page of exactly stride rows delivers the rows
from the current index up to but not including the last slot, then hands
the last slot's key back as the next page's start. -/
theorem rowback_full (stride : Nat) (page : List ERow) (hpos : 0 < stride)
    (hlen : page.length = stride) :
    ∀ i : Nat, i ≤ stride - 1 →
      rowback stride page i
        = (((page.drop i).take (stride - 1 - i)).map
             (fun r => (r.key, enumColumns r.columns)),
           PageOutcome.nextPage (page.get ⟨stride - 1, by omega⟩).key) := by
  have key : ∀ fuel i : Nat, stride - 1 - i ≤ fuel → i ≤ stride - 1 →
      rowback stride page i
        = (((page.drop i).take (stride - 1 - i)).map
             (fun r => (r.key, enumColumns r.columns)),
           PageOutcome.nextPage (page.get ⟨stride - 1, by omega⟩).key) := by
    intro fuel
    induction fuel with
    | zero =>
        intro i hf hi
        have hieq : i = stride - 1 := by omega
        subst hieq
        unfold rowback
        rw [dif_pos (by omega), if_pos rfl]
        simp
    | succ fuel ih =>
        intro i hf hi
        by_cases hieq : stride - 1 = i
        · subst hieq
          unfold rowback
          rw [dif_pos (by omega), if_pos rfl]
          simp
        · have hlt : i < stride - 1 := by omega
          unfold rowback
          simp only [dif_pos (by omega : i < page.length), if_neg hieq]
          rw [ih (i + 1) (by omega) (by omega),
            List.drop_eq_getElem_cons (by omega : i < page.length),
            (by omega : stride - 1 - i = (stride - 1 - (i + 1)) + 1),
            List.take_succ_cons]
          simp
  intro i hi
  exact key (stride - 1 - i) i (Nat.le_refl _) hi

/-- The page loop of enumerate, started anywhere in a sorted table with a
stride of at least two and enough fuel, delivers exactly the remaining
suffix in order and then completes once, with no error and fuel left. -/
theorem enumGo_complete (stride : Nat) (hs : 2 ≤ stride) (table : List ERow)
    (hsort : table.Pairwise (fun a b => a.key < b.key)) :
    ∀ (fuel m start : Nat), table.length - m < fuel →
      table.dropWhile (fun r => decide (r.key < start)) = table.drop m →
      ((enumGo stride table fuel start).delivered
          = (table.drop m).map (fun r => (r.key, enumColumns r.columns))
        ∧ (enumGo stride table fuel start).dones = 1
        ∧ (enumGo stride table fuel start).errs = 0
        ∧ (enumGo stride table fuel start).fuelOut = false) := by
  intro fuel
  induction fuel with
  | zero => intro m start h; omega
  | succ fuel ih =>
      intro m start hfuel hdw
      have hpage : get_range_slices table start stride = (table.drop m).take stride := by
        unfold get_range_slices
        rw [hdw]
      have hrm : (table.drop m).length = table.length - m := List.length_drop m table
      by_cases hcase : table.length - m < stride
      · have hpage2 : get_range_slices table start stride = table.drop m := by
          rw [hpage, List.take_of_length_le (by omega)]
        have hrb := rowback_short stride (table.drop m) (by omega) 0
        simp only [enumGo, hpage2, hrb]
        simp
      · have hplen : ((table.drop m).take stride).length = stride := by
          simp only [List.length_take]
          omega
        have hj : m + (stride - 1) < table.length := by omega
        have hrb := rowback_full stride ((table.drop m).take stride) (by omega) hplen 0
          (by omega)
        have hbd : (((table.drop m).take stride).get
              ⟨stride - 1, by omega⟩).key
            = (table.get ⟨m + (stride - 1), hj⟩).key := by
          simp [List.getElem_take, List.getElem_drop]
        have hdw2 : table.dropWhile
              (fun r => decide (r.key < (table.get ⟨m + (stride - 1), hj⟩).key))
            = table.drop (m + (stride - 1)) :=
          dropWhile_key_lt_get table hsort (m + (stride - 1)) hj
        obtain ⟨ihd, ihdones, iherrs, ihfuel⟩ :=
          ih (m + (stride - 1)) ((table.get ⟨m + (stride - 1), hj⟩).key)
            (by omega) hdw2
        simp only [enumGo, hpage, hrb, hbd]
        refine ⟨?_, by simpa using ihdones, by simpa using iherrs, by simpa using ihfuel⟩
        simp only [List.drop_zero, Nat.sub_zero, List.take_take]
        rw [ihd]
        have hdd : table.drop (m + (stride - 1)) = (table.drop m).drop (stride - 1) := by
          rw [List.drop_drop]
        rw [hdd, ← List.map_append]
        have hmin : min (stride - 1) stride = stride - 1 := by omega
        rw [hmin, List.take_append_drop]

/-- C2 (amended to strides of at least two): enumerate over a sorted table
delivers every row exactly once, in the table's non-decreasing key order,
the boundary row of each full page being delivered only as the first row of
the following page, and fires the completion callback exactly once, when a
fetched page comes back shorter than the stride; no error fires and the run
terminates within one page per row. -/
theorem C2_enumerate_paginates (stride : Nat) (table : List ERow)
    (hs : 2 ≤ stride) (hsort : table.Pairwise (fun a b => a.key < b.key)) :
    (enumGo stride table (table.length + 1) 0).delivered
        = table.map (fun r => (r.key, enumColumns r.columns))
    ∧ ((enumGo stride table (table.length + 1) 0).delivered.map Prod.fst).Pairwise (· ≤ ·)
    ∧ (enumGo stride table (table.length + 1) 0).dones = 1
    ∧ (enumGo stride table (table.length + 1) 0).errs = 0
    ∧ (enumGo stride table (table.length + 1) 0).fuelOut = false := by
  obtain ⟨h1, h2, h3, h4⟩ := enumGo_complete stride hs table hsort (table.length + 1) 0 0
    (by omega) (by rw [dropWhile_key_lt_zero, List.drop_zero])
  have h1t : (enumGo stride table (table.length + 1) 0).delivered
      = table.map (fun r => (r.key, enumColumns r.columns)) := by
    simpa using h1
  refine ⟨h1t, ?_, h2, h3, h4⟩
  rw [h1t]
  have hle : table.Pairwise (fun a b => a.key ≤ b.key) :=
    hsort.imp (fun h => Nat.le_of_lt h)
  simpa [List.pairwise_map] using hle

/-- C2 witness: with stride two over a three-row table the three rows come
back in key order with their flattened columns and completion fires once. -/
theorem C2_enumerate_paginates_witness :
    (enumGo 2 [⟨1, [⟨"a", "1"⟩]⟩, ⟨2, []⟩, ⟨3, []⟩] 4 0).delivered
      = [(1, [("a", "1")]), (2, []), (3, [])]
    ∧ (enumGo 2 [⟨1, [⟨"a", "1"⟩]⟩, ⟨2, []⟩, ⟨3, []⟩] 4 0).dones = 1
    ∧ (enumGo 2 [⟨1, [⟨"a", "1"⟩]⟩, ⟨2, []⟩, ⟨3, []⟩] 4 0).errs = 0 := by
  have h := C2_enumerate_paginates 2 [⟨1, [⟨"a", "1"⟩]⟩, ⟨2, []⟩, ⟨3, []⟩]
    (by omega) (by decide)
  exact ⟨h.1.trans (by decide), h.2.2.1, h.2.2.2.1⟩

/-- With a stride of one, every page's slot zero is the last slot, so the
loop keeps re-fetching from the same boundary key without ever delivering a
row or completing. -/
theorem enumGo_stride_one (r : ERow) :
    ∀ (fuel start : Nat), start ≤ r.key →
      ((enumGo 1 [r] fuel start).delivered = []
        ∧ (enumGo 1 [r] fuel start).dones = 0) := by
  intro fuel
  induction fuel with
  | zero => intro start h; simp [enumGo]
  | succ fuel ih =>
      intro start h
      have hpage : get_range_slices [r] start 1 = [r] := by
        unfold get_range_slices
        rw [List.dropWhile_cons_of_neg (by simp only [decide_eq_true_eq]; omega)]
        rfl
      have hrb : rowback 1 [r] 0 = ([], PageOutcome.nextPage r.key) := by
        unfold rowback
        rw [dif_pos (by simp)]
        simp
      have hrec := ih r.key (Nat.le_refl _)
      simp [enumGo, hpage, hrb, hrec.1, hrec.2]

/-- C2 counterexample: as stated, the claim quantifies over every page size;
at stride one on a one-row table, enumerate never delivers the row and never
fires completion, however many pages it is allowed to fetch. -/
theorem C2_stride_one_counterexample :
    enumNeverDelivers (some 1) [⟨1, [⟨"a", "v"⟩]⟩] := by
  intro fuel
  have h := enumGo_stride_one ⟨1, [⟨"a", "v"⟩]⟩ fuel 0 (by omega)
  simpa [enumerate, jsOrNat] using h

end NodeCassandra
